import Mathlib

/-!
Verification of the DiceMix protocol core (BlockstreamResearch/dicemix).

Shallow embedding of the Rust sources:
  * src/field.rs           — prime field arithmetic over P = 2^127 - 1
  * src/io.rs              — authenticated message channel
  * src/state/mod.rs       — run state machine
  * src/state/history.rs   — per-peer run history
  * src/dc/xor.rs          — XOR DC-net group
  * src/rng.rs             — DiceMix RNG (ChaCha-based pad derivation)
  * src/messages.rs        — wire message codec

Machine integers are embedded as Nat with explicit wrap-around (% 2^w)
exactly where the Rust code wraps; Rust panics (assert!, debug_assert!,
unimplemented!, out-of-bounds indexing, Option::unwrap) are embedded as
explicit error outcomes.
-/

namespace DiceMix

/-! ## Field arithmetic (src/field.rs)

`Fp` wraps a `u128`; an element is consistent iff its representation lies
in `[0, P]`, so the zero element has the two representations `0` and `P`.
We embed the representation directly as a natural number. -/

/-- The field size `P = (1 << 127) - 1` (src/field.rs). -/
def P : ℕ := 2 ^ 127 - 1

/-- `Reduce::reduce_once` for `u128`: `(self & P) + (self >> 127)` (src/field.rs). -/
def reduceOnce (x : ℕ) : ℕ := (x &&& P) + (x >>> 127)

/-- `Reduce::reduce_once` for `(u128, u128)`:
`shift = (h << 1) | (l >> 127); (l & P) + shift` (src/field.rs).
The `u128` left shift discards the high bit, hence the `% 2 ^ 128`. -/
def reduceOncePair (h l : ℕ) : ℕ :=
  (l &&& P) + (((h <<< 1) % 2 ^ 128) ||| (l >>> 127))

/-- `as_limbs`: `((x >> 64) as u64, x as u64)` (src/field.rs). -/
def asLimbs (x : ℕ) : ℕ × ℕ := (x >>> 64, x % 2 ^ 64)

/-- `Neg for Fp`: `P - self.0` (src/field.rs). -/
def fpNeg (x : ℕ) : ℕ := P - x

/-- `Add for Fp`: `(self.0 + other.0).reduce_once_assert()` (src/field.rs). -/
def fpAdd (x y : ℕ) : ℕ := reduceOnce (x + y)

/-- `Sub for Fp`: `self + (-other)` (src/field.rs). -/
def fpSub (x y : ℕ) : ℕ := fpAdd x (fpNeg y)

/-- The double-width limb product of `Mul for Fp` (src/field.rs): returns
`(rh, rl)` with the intermediate computations `m`, `ml`, `mh`, `carry`
exactly as in the source. -/
def mulLimbProduct (x y : ℕ) : ℕ × ℕ :=
  let sh := (asLimbs x).1
  let sl := (asLimbs x).2
  let oh := (asLimbs y).1
  let ol := (asLimbs y).2
  let m := sh * ol + oh * sl
  let mh := (asLimbs m).1
  let ml := (asLimbs m).2
  let t := sl * ol + (ml <<< 64) % 2 ^ 128
  let rl := t % 2 ^ 128
  let carry := if 2 ^ 128 ≤ t then 1 else 0
  let rh := sh * oh + mh + carry
  (rh, rl)

/-- The first (pair) reduction pass of `Mul for Fp` (src/field.rs). -/
def mulFirstPass (x y : ℕ) : ℕ :=
  reduceOncePair (mulLimbProduct x y).1 (mulLimbProduct x y).2

/-- `Mul for Fp`: `Fp((rh, rl).reduce_once().reduce_once_assert())` (src/field.rs). -/
def fpMul (x y : ℕ) : ℕ := reduceOnce (mulFirstPass x y)

/-- `Fp::from_u127` (src/field.rs): stores the value unchanged
(`x == P` is explicitly allowed; `x <= P` is debug-asserted). -/
def fpFromU127 (x : ℕ) : ℕ := x

/-- `From<Fp> for u128` (src/field.rs): reduce once, collapse `P` to `0`. -/
def fpToU128 (x : ℕ) : ℕ :=
  let red := reduceOnce x
  if red = P then 0 else red

/-- `PartialEq for Fp` (src/field.rs): compare canonical external values. -/
def fpEqb (x y : ℕ) : Bool := fpToU128 x == fpToU128 y

/-! ### Arithmetic lemmas about the reduction -/

theorem reduceOnce_eq (x : ℕ) : reduceOnce x = x % 2 ^ 127 + x / 2 ^ 127 := by
  show (x &&& (2 ^ 127 - 1)) + (x >>> 127) = _
  rw [Nat.and_pow_two_sub_one_eq_mod, Nat.shiftRight_eq_div_pow]

theorem reduceOnce_mod_P (x : ℕ) : reduceOnce x % P = x % P := by
  rw [reduceOnce_eq]
  conv_rhs => rw [← Nat.div_add_mod x (2 ^ 127)]
  have h2 : (2 : ℕ) ^ 127 = P + 1 := by simp [P]
  rw [h2]
  have : (P + 1) * (x / (P + 1)) + x % (P + 1)
      = P * (x / (P + 1)) + (x % (P + 1) + x / (P + 1)) := by ring
  rw [this, Nat.mul_add_mod]

theorem reduceOnce_le {x : ℕ} (h : x ≤ 2 ^ 128 - 2) : reduceOnce x ≤ P := by
  rw [reduceOnce_eq]
  have hq := Nat.div_add_mod x (2 ^ 127)
  have hr : x % 2 ^ 127 < 2 ^ 127 := Nat.mod_lt _ (by positivity)
  have hP : P = 2 ^ 127 - 1 := rfl
  omega

theorem reduceOnce_lt_of_le {x : ℕ} (h : x ≤ P) : reduceOnce x = x := by
  rw [reduceOnce_eq]
  have hx : x < 2 ^ 127 := by
    have : P < 2 ^ 127 := by simp [P]
    omega
  rw [Nat.mod_eq_of_lt hx, Nat.div_eq_of_lt hx, Nat.add_zero]

theorem fpToU128_eq_mod {x : ℕ} (h : x ≤ P) : fpToU128 x = x % P := by
  unfold fpToU128
  rw [reduceOnce_lt_of_le h]
  rcases Nat.lt_or_ge x P with hlt | hge
  · simp [Nat.ne_of_lt hlt, Nat.mod_eq_of_lt hlt]
  · have hxP : x = P := le_antisymm h hge
    simp [hxP]

theorem fpAdd_le {x y : ℕ} (hx : x ≤ P) (hy : y ≤ P) : fpAdd x y ≤ P := by
  apply reduceOnce_le
  have : P = 2 ^ 127 - 1 := rfl
  omega

theorem fpAdd_mod (x y : ℕ) : fpAdd x y % P = (x + y) % P := reduceOnce_mod_P _

theorem fpNeg_le {x : ℕ} (_ : x ≤ P) : fpNeg x ≤ P := Nat.sub_le _ _

/-- The double-width limb computation of `Mul for Fp` reconstructs the
exact product: `rh * 2^128 + rl = x * y`. -/
theorem mulLimbProduct_identity (x y : ℕ) :
    (mulLimbProduct x y).1 * 2 ^ 128 + (mulLimbProduct x y).2 = x * y := by
  unfold mulLimbProduct asLimbs
  simp only [Nat.shiftRight_eq_div_pow, Nat.shiftLeft_eq]
  set A := x / 2 ^ 64 with hA
  set B := x % 2 ^ 64 with hB
  set C := y / 2 ^ 64 with hC
  set D := y % 2 ^ 64 with hD
  set m := A * D + C * B with hm
  have hml : m % 2 ^ 64 < 2 ^ 64 := Nat.mod_lt _ (by positivity)
  have hml64 : m % 2 ^ 64 * 2 ^ 64 < 2 ^ 64 * 2 ^ 64 :=
    (Nat.mul_lt_mul_right (by norm_num : (0 : ℕ) < 2 ^ 64)).mpr hml
  have hshl : m % 2 ^ 64 * 2 ^ 64 % 2 ^ 128 = m % 2 ^ 64 * 2 ^ 64 := by
    apply Nat.mod_eq_of_lt
    calc m % 2 ^ 64 * 2 ^ 64 < 2 ^ 64 * 2 ^ 64 := hml64
      _ = 2 ^ 128 := by norm_num
  rw [hshl]
  set t := B * D + m % 2 ^ 64 * 2 ^ 64 with ht
  have hBD : B * D < 2 ^ 64 * 2 ^ 64 :=
    Nat.mul_lt_mul_of_lt_of_lt (Nat.mod_lt _ (by positivity)) (Nat.mod_lt _ (by positivity))
  have htlt : t < 2 ^ 129 := by
    have h2 : (2 : ℕ) ^ 64 * 2 ^ 64 = 2 ^ 128 := by norm_num
    omega
  have hcarry : (if 2 ^ 128 ≤ t then 1 else 0) * 2 ^ 128 + t % 2 ^ 128 = t := by
    rcases Nat.lt_or_ge t (2 ^ 128) with hlt | hge
    · rw [if_neg (by omega), Nat.mod_eq_of_lt hlt]; omega
    · rw [if_pos hge]
      have := Nat.div_add_mod t (2 ^ 128)
      have hdiv : t / 2 ^ 128 = 1 := by
        have h1 : 1 ≤ t / 2 ^ 128 := (Nat.one_le_div_iff (by positivity)).mpr hge
        have h2 : t / 2 ^ 128 < 2 := by
          apply Nat.div_lt_of_lt_mul
          calc t < 2 ^ 129 := htlt
            _ = 2 ^ 128 * 2 := by norm_num
            _ = 2 * 2 ^ 128 := by ring
        omega
      omega
  have hmsplit : m / 2 ^ 64 * 2 ^ 64 + m % 2 ^ 64 = m := Nat.div_add_mod' m (2 ^ 64)
  have hxsplit : A * 2 ^ 64 + B = x := Nat.div_add_mod' x (2 ^ 64)
  have hysplit : C * 2 ^ 64 + D = y := Nat.div_add_mod' y (2 ^ 64)
  calc (A * C + m / 2 ^ 64 + if 2 ^ 128 ≤ t then 1 else 0) * 2 ^ 128 + t % 2 ^ 128
      = A * C * 2 ^ 128 + m / 2 ^ 64 * 2 ^ 128
        + ((if 2 ^ 128 ≤ t then 1 else 0) * 2 ^ 128 + t % 2 ^ 128) := by ring
    _ = A * C * 2 ^ 128 + m / 2 ^ 64 * 2 ^ 128 + t := by rw [hcarry]
    _ = A * C * 2 ^ 128 + (m / 2 ^ 64 * 2 ^ 64 + m % 2 ^ 64) * 2 ^ 64 + B * D := by
        rw [ht]; ring
    _ = A * C * 2 ^ 128 + (A * D + C * B) * 2 ^ 64 + B * D := by rw [hmsplit, ← hm]
    _ = (A * 2 ^ 64 + B) * (C * 2 ^ 64 + D) := by ring
    _ = x * y := by rw [hxsplit, hysplit]

/-- For consistent inputs the high limb of the product is below `2^127`,
so the `u128` left shift in the pair reduction does not wrap. -/
theorem mulLimbProduct_fst_lt {x y : ℕ} (hx : x ≤ P) (hy : y ≤ P) :
    (mulLimbProduct x y).1 < 2 ^ 127 := by
  unfold mulLimbProduct asLimbs
  simp only [Nat.shiftRight_eq_div_pow, Nat.shiftLeft_eq]
  have hPdiv : P / 2 ^ 64 = 2 ^ 63 - 1 := by norm_num [P]
  have hxh : x / 2 ^ 64 ≤ 2 ^ 63 - 1 := hPdiv ▸ Nat.div_le_div_right hx
  have hyh : y / 2 ^ 64 ≤ 2 ^ 63 - 1 := hPdiv ▸ Nat.div_le_div_right hy
  have hxl : x % 2 ^ 64 ≤ 2 ^ 64 - 1 := by
    have := Nat.mod_lt x (show 0 < 2 ^ 64 by norm_num); omega
  have hyl : y % 2 ^ 64 ≤ 2 ^ 64 - 1 := by
    have := Nat.mod_lt y (show 0 < 2 ^ 64 by norm_num); omega
  set m := x / 2 ^ 64 * (y % 2 ^ 64) + y / 2 ^ 64 * (x % 2 ^ 64) with hm
  have hmle : m ≤ (2 ^ 63 - 1) * (2 ^ 64 - 1) + (2 ^ 63 - 1) * (2 ^ 64 - 1) :=
    Nat.add_le_add (Nat.mul_le_mul hxh hyl) (Nat.mul_le_mul hyh hxl)
  have hmh : m / 2 ^ 64 < 2 ^ 64 := by
    apply Nat.div_lt_of_lt_mul
    calc m ≤ (2 ^ 63 - 1) * (2 ^ 64 - 1) + (2 ^ 63 - 1) * (2 ^ 64 - 1) := hmle
      _ < 2 ^ 64 * 2 ^ 64 := by norm_num
  have hhh : x / 2 ^ 64 * (y / 2 ^ 64) ≤ (2 ^ 63 - 1) * (2 ^ 63 - 1) :=
    Nat.mul_le_mul hxh hyh
  have hcarry : (if 2 ^ 128 ≤ x % 2 ^ 64 * (y % 2 ^ 64)
      + m % 2 ^ 64 * 2 ^ 64 % 2 ^ 128 then 1 else 0) ≤ 1 := by
    split <;> omega
  omega

theorem mulLimbProduct_snd_lt (x y : ℕ) : (mulLimbProduct x y).2 < 2 ^ 128 := by
  unfold mulLimbProduct
  exact Nat.mod_lt _ (by norm_num)

/-- The pair reduction computes the same fold as the scalar reduction of
the full 256-bit value, provided the high limb does not overflow the shift. -/
theorem reduceOncePair_eq {h l : ℕ} (hh : h < 2 ^ 127) (hl : l < 2 ^ 128) :
    reduceOncePair h l = reduceOnce (h * 2 ^ 128 + l) := by
  unfold reduceOncePair
  rw [reduceOnce_eq]
  have hshl : (h <<< 1) % 2 ^ 128 = 2 * h := by
    rw [Nat.shiftLeft_eq]
    have h1 : h * 2 ^ 1 = 2 * h := by ring
    rw [h1]
    exact Nat.mod_eq_of_lt (by omega)
  have hlor : 2 * h ||| l >>> 127 = 2 * h + l >>> 127 := by
    have hdiv : l >>> 127 < 2 ^ 1 := by
      rw [Nat.shiftRight_eq_div_pow]
      apply Nat.div_lt_of_lt_mul
      omega
    have := (Nat.mul_add_lt_is_or hdiv h).symm
    simpa [Nat.mul_comm] using this
  rw [hshl, hlor, Nat.shiftRight_eq_div_pow]
  show (l &&& (2 ^ 127 - 1)) + _ = _
  rw [Nat.and_pow_two_sub_one_eq_mod]
  have hmod : (h * 2 ^ 128 + l) % 2 ^ 127 = l % 2 ^ 127 := by
    have : h * 2 ^ 128 = 2 ^ 127 * (2 * h) := by ring
    rw [this, Nat.mul_add_mod]
  have hdiv : (h * 2 ^ 128 + l) / 2 ^ 127 = 2 * h + l / 2 ^ 127 := by
    have : h * 2 ^ 128 = 2 ^ 127 * (2 * h) := by ring
    rw [this, Nat.mul_add_div (by norm_num)]
  omega

/-- `Mul for Fp` equals two scalar fold-back reductions of the exact product. -/
theorem fpMul_eq_double_reduce {x y : ℕ} (hx : x ≤ P) (hy : y ≤ P) :
    fpMul x y = reduceOnce (reduceOnce (x * y)) := by
  unfold fpMul mulFirstPass
  rw [reduceOncePair_eq (mulLimbProduct_fst_lt hx hy) (mulLimbProduct_snd_lt x y),
    mulLimbProduct_identity]

theorem fpMul_mod (x y : ℕ) (hx : x ≤ P) (hy : y ≤ P) :
    fpMul x y % P = x * y % P := by
  rw [fpMul_eq_double_reduce hx hy, reduceOnce_mod_P, reduceOnce_mod_P]

theorem fpMul_le {x y : ℕ} (hx : x ≤ P) (hy : y ≤ P) : fpMul x y ≤ P := by
  rw [fpMul_eq_double_reduce hx hy]
  apply reduceOnce_le
  rw [reduceOnce_eq]
  have hr : x * y % 2 ^ 127 ≤ 2 ^ 127 - 1 := by
    have := Nat.mod_lt (x * y) (show 0 < 2 ^ 127 by norm_num); omega
  have hq : x * y / 2 ^ 127 ≤ 2 ^ 127 - 2 := by
    have h1 : x * y ≤ P * P := Nat.mul_le_mul hx hy
    have h2 : x * y / 2 ^ 127 ≤ P * P / 2 ^ 127 := Nat.div_le_div_right h1
    have h3 : P * P / 2 ^ 127 = 2 ^ 127 - 2 := by norm_num [P]
    omega
  omega

theorem fpAdd_modeq (x y : ℕ) : fpAdd x y ≡ x + y [MOD P] := by
  show fpAdd x y % P = (x + y) % P
  exact fpAdd_mod x y

theorem fpMul_modeq {x y : ℕ} (hx : x ≤ P) (hy : y ≤ P) : fpMul x y ≡ x * y [MOD P] := by
  show fpMul x y % P = x * y % P
  exact fpMul_mod x y hx hy

/-- C6: for consistent field elements `a`, `b` (representation in `[0, P]`),
`Mul for Fp` returns a representation again in `[0, P]` whose canonical value
is `(a * b) mod P`; the construction uses two fold-back passes, and the second
pass is required in the worst case: for `a = b = P - 1` the first pass leaves
a value strictly above `P`. -/
theorem fp_mul_reduces_correctly (a b : ℕ) (ha : a ≤ P) (hb : b ≤ P) :
    fpMul a b ≤ P ∧ fpToU128 (fpMul a b) = a * b % P ∧
    fpMul a b = reduceOnce (mulFirstPass a b) ∧
    P < mulFirstPass (P - 1) (P - 1) := by
  refine ⟨fpMul_le ha hb, ?_, rfl, by decide⟩
  rw [fpToU128_eq_mod (fpMul_le ha hb), fpMul_mod _ _ ha hb]

/-- Witness for `fp_mul_reduces_correctly` at `a = 3`, `b = 4`. -/
theorem fp_mul_reduces_correctly_witness :
    fpMul 3 4 ≤ P ∧ fpToU128 (fpMul 3 4) = 3 * 4 % P ∧
    fpMul 3 4 = reduceOnce (mulFirstPass 3 4) ∧
    P < mulFirstPass (P - 1) (P - 1) :=
  fp_mul_reduces_correctly 3 4 (by norm_num [P]) (by norm_num [P])

/-- C7: the field laws at the level of canonical external values
(`From<Fp> for u128`, which collapses the two representations of zero):
commutativity and associativity of addition, additive inverses,
distributivity, and the to/from round trip for `0 ≤ v < P`. -/
theorem fp_algebraic_laws (a b c : ℕ) (ha : a ≤ P) (hb : b ≤ P) (hc : c ≤ P) :
    fpToU128 (fpAdd a b) = fpToU128 (fpAdd b a) ∧
    fpToU128 (fpAdd (fpAdd a b) c) = fpToU128 (fpAdd a (fpAdd b c)) ∧
    fpToU128 (fpAdd a (fpNeg a)) = fpToU128 (fpFromU127 0) ∧
    fpToU128 (fpMul a (fpAdd b c)) = fpToU128 (fpAdd (fpMul a b) (fpMul a c)) ∧
    (∀ v, v < P → fpToU128 (fpFromU127 v) = v) := by
  have hfrom0 : fpToU128 (fpFromU127 0) = 0 := by
    rw [fpFromU127, fpToU128_eq_mod (Nat.zero_le P), Nat.zero_mod]
  refine ⟨?_, ?_, ?_, ?_, ?_⟩
  · rw [fpToU128_eq_mod (fpAdd_le ha hb), fpToU128_eq_mod (fpAdd_le hb ha),
      fpAdd_mod, fpAdd_mod, Nat.add_comm]
  · rw [fpToU128_eq_mod (fpAdd_le (fpAdd_le ha hb) hc),
      fpToU128_eq_mod (fpAdd_le ha (fpAdd_le hb hc))]
    have h1 : fpAdd (fpAdd a b) c ≡ (a + b) + c [MOD P] :=
      (fpAdd_modeq _ _).trans ((fpAdd_modeq a b).add_right c)
    have h2 : fpAdd a (fpAdd b c) ≡ a + (b + c) [MOD P] :=
      (fpAdd_modeq _ _).trans ((fpAdd_modeq b c).add_left a)
    calc fpAdd (fpAdd a b) c % P = ((a + b) + c) % P := h1
      _ = (a + (b + c)) % P := by rw [Nat.add_assoc]
      _ = fpAdd a (fpAdd b c) % P := h2.symm
  · rw [hfrom0]
    have hsum : a + fpNeg a = P := by
      have : P - a + a = P := Nat.sub_add_cancel ha
      unfold fpNeg
      omega
    unfold fpAdd
    rw [hsum, fpToU128_eq_mod (reduceOnce_le (by norm_num [P])),
      reduceOnce_mod_P, Nat.mod_self]
  · rw [fpToU128_eq_mod (fpMul_le ha (fpAdd_le hb hc)),
      fpToU128_eq_mod (fpAdd_le (fpMul_le ha hb) (fpMul_le ha hc))]
    have h1 : fpMul a (fpAdd b c) ≡ a * (b + c) [MOD P] :=
      (fpMul_modeq ha (fpAdd_le hb hc)).trans ((fpAdd_modeq b c).mul_left a)
    have h2 : fpAdd (fpMul a b) (fpMul a c) ≡ a * b + a * c [MOD P] :=
      (fpAdd_modeq _ _).trans ((fpMul_modeq ha hb).add (fpMul_modeq ha hc))
    calc fpMul a (fpAdd b c) % P = (a * (b + c)) % P := h1
      _ = (a * b + a * c) % P := by rw [Nat.mul_add]
      _ = fpAdd (fpMul a b) (fpMul a c) % P := h2.symm
  · intro v hv
    rw [fpFromU127, fpToU128_eq_mod (Nat.le_of_lt hv), Nat.mod_eq_of_lt hv]

/-- Witness for `fp_algebraic_laws` at `a = 1`, `b = 2`, `c = 3`, `v = 5`. -/
theorem fp_algebraic_laws_witness :
    fpToU128 (fpAdd 1 2) = fpToU128 (fpAdd 2 1) ∧
    fpToU128 (fpAdd 1 (fpNeg 1)) = fpToU128 (fpFromU127 0) ∧
    fpToU128 (fpFromU127 5) = 5 := by
  have h := fp_algebraic_laws 1 2 3 (by norm_num [P]) (by norm_num [P]) (by norm_num [P])
  exact ⟨h.1, h.2.2.1, h.2.2.2.2 5 (by norm_num [P])⟩

/-! ## XOR DC-net group (src/dc/xor.rs)

`XorVec<u8>` is a byte vector; `BitXor` zips the two vectors and xors
elementwise (the lengths are debug-asserted equal), and `Neg` returns the
vector unchanged (the group is self-inverse). -/

/-- `BitXor for XorVec<u8>` (src/dc/xor.rs): elementwise xor by zip-map. -/
def xorVecBitxor (v1 v2 : List ℕ) : List ℕ :=
  List.zipWith (fun a b => a ^^^ b) v1 v2

/-- `Neg for XorVec<T>` (src/dc/xor.rs): the identity. -/
def xorVecNeg (v : List ℕ) : List ℕ := v

/-- C8: for equal-length byte vectors the XOR combine is commutative,
a vector combined with itself is the all-zero vector of the same length,
and inversion is the identity. -/
theorem xor_group_laws (v1 v2 v : List ℕ) (_h : v1.length = v2.length) :
    xorVecBitxor v1 v2 = xorVecBitxor v2 v1 ∧
    xorVecBitxor v v = List.replicate v.length 0 ∧
    xorVecNeg v = v := by
  refine ⟨?_, ?_, rfl⟩
  · unfold xorVecBitxor
    exact List.zipWith_comm_of_comm _ (fun a b => Nat.xor_comm a b) v1 v2
  · unfold xorVecBitxor
    induction v with
    | nil => rfl
    | cons x xs ih => simp only [List.zipWith_cons_cons, List.length_cons,
        List.replicate_succ, Nat.xor_self, ih]

/-- Witness for `xor_group_laws` at `v1 = [1, 2]`, `v2 = [3, 4]`, `v = [5, 6]`. -/
theorem xor_group_laws_witness :
    xorVecBitxor [1, 2] [3, 4] = xorVecBitxor [3, 4] [1, 2] ∧
    xorVecBitxor [5, 6] [5, 6] = List.replicate (List.length [5, 6]) 0 ∧
    xorVecNeg [5, 6] = [5, 6] :=
  xor_group_laws [1, 2] [3, 4] [5, 6] (by decide)

/-! ## Protocol payloads

The `messages` module snapshot used by src/io.rs and src/state is not part
of the sources; the payload enum below is modelled from the spec (section 6
wire payload list) together with the variants referenced in
src/state/mod.rs and src/state/history.rs. Byte arrays, field-element
vectors and keys are embedded as natural numbers / lists of naturals. -/

/-- `DcExponential` payload: commitment plus field-element DC-net vector. -/
structure DcExponential where
  commitment : List ℕ
  dc_exp : List ℕ
deriving DecidableEq

/-- `DcXor` payload: ok flag plus byte-vector list. -/
structure DcXor where
  ok : Bool
  dc_xor : List (List ℕ)
deriving DecidableEq

/-- Modelled from the spec: `DcAddSecp256k1Scalar` payload (a DC-net vector
in the group of secp256k1 scalars); its contents are opaque here. -/
structure DcAddSecp256k1Scalar where
  scalars : List ℕ
deriving DecidableEq

/-- `Reveal` payload: list of (peer index, revealed symmetric key) pairs. -/
structure Reveal where
  keys : List (ℕ × ℕ)
deriving DecidableEq

/-- Modelled from the spec: the payload enum consumed by the state machine
(`KeyExchange`, `DcExponential`, `DcMain`, `Blame`, `Confirm`, `Reveal`)
together with the `DcXor` and `DcAddSecp256k1Scalar` variants recorded by
src/state/history.rs. -/
inductive Payload where
  | KeyExchange (ke_pk : ℕ)
  | DcExponential (pay : DcExponential)
  | DcXor (pay : DcXor)
  | DcMain (ok : Bool) (dc_main : List (List ℕ))
  | DcAddSecp256k1Scalar (pay : DcAddSecp256k1Scalar)
  | Blame (ke_sk : ℕ)
  | Confirm (data : List ℕ)
  | Reveal (pay : Reveal)
deriving DecidableEq

/-- A Rust panic, as an explicit outcome: which `assert!`/`debug_assert!`/
`unimplemented!`/indexing failure fired. -/
inductive Panic where
  | doubleReveal (peer : ℕ)
  | inconsistentHistory
  | duplicateMessage
  | missingHistory
  | unimplementedArm
deriving DecidableEq

/-! ## Run history (src/state/history.rs) -/

/-- `RunHistory`: the payload variants a peer has sent this run, plus the
revealed symmetric keys (`VecMap<SymmetricKey>` embedded as an association
list keyed by peer index). -/
structure RunHistory where
  dc_exponential : Option DcExponential
  dc_xor : Option DcXor
  dc_add_secp256k1_scalar : Option DcAddSecp256k1Scalar
  revealed_symmetric_keys : List (ℕ × ℕ)
deriving DecidableEq

/-- `RunHistory::new` (src/state/history.rs). -/
def RunHistory.new (_num_peers : ℕ) : RunHistory :=
  ⟨none, none, none, []⟩

/-- `RunHistory::consistent` (src/state/history.rs). -/
def RunHistory.consistent (h : RunHistory) : Bool :=
  if h.dc_exponential.isSome && h.revealed_symmetric_keys.isEmpty then
    false
  else
    match h.dc_exponential.isSome, h.dc_xor.isSome,
        h.dc_add_secp256k1_scalar.isSome with
    | _, false, false => true
    | true, true, _ => true
    | _, _, _ => false

/-- The key-recording loop of `RunHistory::record_payload` for a `Reveal`
payload: each `VecMap::insert` must find no previously recorded key
(`assert!(was.is_none(), ...)`), else it panics. -/
def recordKeys (h : RunHistory) : List (ℕ × ℕ) → Except Panic RunHistory
  | [] => .ok h
  | (i, k) :: rest =>
    match h.revealed_symmetric_keys.lookup i with
    | some _ => .error (.doubleReveal i)
    | none =>
      recordKeys { h with revealed_symmetric_keys := (i, k) :: h.revealed_symmetric_keys } rest

/-- `RunHistory::record_payload` (src/state/history.rs): record the variant,
then `assert!(self.consistent())`. -/
def RunHistory.record_payload (h : RunHistory) (payload : Payload) : Except Panic RunHistory :=
  let step : Except Panic RunHistory :=
    match payload with
    | .DcExponential inner => .ok { h with dc_exponential := some inner }
    | .DcXor inner => .ok { h with dc_xor := some inner }
    | .Reveal r => recordKeys h r.keys
    | _ => .ok h
  match step with
  | .error e => .error e
  | .ok h' => if h'.consistent then .ok h' else .error .inconsistentHistory

theorem recordKeys_preserves_exp (h : RunHistory) (keys : List (ℕ × ℕ)) {h' : RunHistory}
    (hok : recordKeys h keys = .ok h') : h'.dc_exponential = h.dc_exponential := by
  induction keys generalizing h with
  | nil => cases hok; rfl
  | cons p rest ih =>
    obtain ⟨i, k⟩ := p
    unfold recordKeys at hok
    cases hcase : h.revealed_symmetric_keys.lookup i with
    | some v => rw [hcase] at hok; cases hok
    | none =>
      simp only [hcase] at hok
      exact ih { h with revealed_symmetric_keys := (i, k) :: h.revealed_symmetric_keys } hok

theorem recordKeys_double_panics (h : RunHistory) (keys : List (ℕ × ℕ)) (i : ℕ)
    (hrec : (h.revealed_symmetric_keys.lookup i).isSome)
    (hin : i ∈ keys.map Prod.fst) :
    ∃ j, recordKeys h keys = .error (.doubleReveal j) := by
  induction keys generalizing h with
  | nil => simp at hin
  | cons p rest ih =>
    obtain ⟨a, b⟩ := p
    unfold recordKeys
    cases hcase : h.revealed_symmetric_keys.lookup a with
    | some v => exact ⟨a, rfl⟩
    | none =>
      have hia : i ≠ a := by
        intro heq
        rw [heq, hcase] at hrec
        simp at hrec
      have hin' : i ∈ rest.map Prod.fst := by
        simpa [hia] using hin
      apply ih _ _ hin'
      have hbeq : (i == a) = false := beq_eq_false_iff_ne.mpr hia
      have hstep : List.lookup i ((a, b) :: h.revealed_symmetric_keys)
          = List.lookup i h.revealed_symmetric_keys := by
        simp [List.lookup, hbeq]
      show (List.lookup i ((a, b) :: h.revealed_symmetric_keys)).isSome = true
      rw [hstep]
      exact hrec

/-- C5: `record_payload` preserves the run-history invariant: a call that
returns normally leaves a consistent history; a `DcXor` (main) contribution
is accepted only when an exponential contribution from the same peer was
already recorded; and a reveal for a peer index whose key is already
recorded panics (`assert!`) instead of being silently accepted. -/
theorem run_history_invariant (h : RunHistory) :
    (∀ p h', h.record_payload p = .ok h' → h'.consistent = true) ∧
    (∀ x h', h.record_payload (.DcXor x) = .ok h' →
      h.dc_exponential.isSome = true ∧ h'.dc_exponential.isSome = true) ∧
    (∀ r i, (h.revealed_symmetric_keys.lookup i).isSome →
      i ∈ r.keys.map Prod.fst →
      ∃ j, h.record_payload (.Reveal r) = .error (.doubleReveal j)) := by
  refine ⟨?_, ?_, ?_⟩
  · intro p h' hok
    unfold RunHistory.record_payload at hok
    rcases hstep : (match p with
      | .DcExponential inner => Except.ok { h with dc_exponential := some inner }
      | .DcXor inner => Except.ok { h with dc_xor := some inner }
      | .Reveal r => recordKeys h r.keys
      | _ => (.ok h : Except Panic RunHistory)) with e | h''
    · rw [hstep] at hok; cases hok
    · rw [hstep] at hok
      by_cases hcons : h''.consistent
      · simp only [hcons, if_true] at hok
        cases hok
        exact hcons
      · simp only [hcons, if_false] at hok
        cases hok
  · intro x h' hok
    unfold RunHistory.record_payload at hok
    simp only at hok
    by_cases hcons : RunHistory.consistent { h with dc_xor := some x }
    · simp only [hcons, if_true] at hok
      cases hok
      unfold RunHistory.consistent at hcons
      by_cases hexp : h.dc_exponential.isSome
      · exact ⟨hexp, hexp⟩
      · exfalso
        simp only [Bool.not_eq_true] at hexp
        simp [hexp] at hcons
    · simp only [hcons, if_false] at hok
      cases hok
  · intro r i hrec hin
    obtain ⟨j, hj⟩ := recordKeys_double_panics h r.keys i hrec hin
    refine ⟨j, ?_⟩
    unfold RunHistory.record_payload
    simp only [hj]

/-- Witness for `run_history_invariant`: with an exponential contribution
and one revealed key on record, recording a `DcXor` succeeds consistently,
and re-revealing key index 1 panics. -/
theorem run_history_invariant_witness :
    (RunHistory.mk (some ⟨[], []⟩) (some ⟨true, []⟩) none [(1, 9)]).consistent = true ∧
    (RunHistory.mk (some ⟨[], []⟩) none none [(1, 9)]).dc_exponential.isSome = true ∧
    (∃ j, (RunHistory.mk (some ⟨[], []⟩) none none [(1, 9)]).record_payload
        (.Reveal ⟨[(1, 7)]⟩) = .error (.doubleReveal j)) := by
  have h := run_history_invariant (RunHistory.mk (some ⟨[], []⟩) none none [(1, 9)])
  exact ⟨h.1 (.DcXor ⟨true, []⟩)
      (RunHistory.mk (some ⟨[], []⟩) (some ⟨true, []⟩) none [(1, 9)]) rfl,
    (h.2.1 ⟨true, []⟩
      (RunHistory.mk (some ⟨[], []⟩) (some ⟨true, []⟩) none [(1, 9)]) rfl).1,
    h.2.2 ⟨[(1, 7)]⟩ 1 (by decide) (by decide)⟩

/-! ## Run state machine (src/state/mod.rs) -/

/-- `DcPhase` (src/state/mod.rs). -/
inductive DcPhase where
  | Exponential
  | Main
deriving DecidableEq, Fintype

/-- `RunState` (src/state/mod.rs). -/
inductive RunState where
  | DcProcess (phase : DcPhase)
  | DcReveal (phase : DcPhase)
  | Blame
  | Confirm
deriving DecidableEq, Fintype

/-- The discriminant function inside `PartialOrd for RunState`
(src/state/mod.rs). -/
def RunState.discriminant : RunState → ℕ
  | .DcProcess .Exponential => 0
  | .DcReveal .Exponential => 1
  | .DcProcess .Main => 2
  | .DcReveal .Main => 3
  | .Blame => 4
  | .Confirm => 5

/-- `PartialOrd::partial_cmp for RunState` (src/state/mod.rs): `Blame` and
`Confirm` are incomparable, all other pairs compare by discriminant. -/
def RunState.pcmp (a b : RunState) : Option Ordering :=
  match a, b with
  | .Blame, .Confirm => none
  | .Confirm, .Blame => none
  | _, _ => some (compare a.discriminant b.discriminant)

/-- The strict `<` derived from `PartialOrd` in Rust:
`partial_cmp == Some(Less)`. -/
def RunState.ltb (a b : RunState) : Bool := a.pcmp b == some .lt

/-- `RunStateMachine::set_state` (src/state/mod.rs):
`assert!(self.state < state)` then assign; the failed assertion is the
`none` outcome. -/
def RunState.set_state (s t : RunState) : Option RunState :=
  if s.ltb t then some t else none

/-- The partial order as the claim states it: the chain
`DcProcess(Exponential) < DcReveal(Exponential) < DcProcess(Main) <
DcReveal(Main) < {Blame, Confirm}` with `Blame` and `Confirm` incomparable,
expressed by a rank that ties `Blame` and `Confirm`. -/
def RunState.specRank : RunState → ℕ
  | .DcProcess .Exponential => 0
  | .DcReveal .Exponential => 1
  | .DcProcess .Main => 2
  | .DcReveal .Main => 3
  | .Blame => 4
  | .Confirm => 4

/-- Strictly-below in the spec order of the claim. -/
@[reducible] def RunState.specStrictlyBelow (s t : RunState) : Prop :=
  s.specRank < t.specRank

/-- C3: `set_state` permits the transition from `s` to `t` exactly when `s`
is strictly below `t` in the claimed partial order; in particular setting an
equal-or-earlier state, `Blame → Confirm` and `Confirm → Blame` are all
rejected. -/
theorem run_state_monotonic :
    (∀ s t : RunState, s.set_state t = some t ↔ s.specStrictlyBelow t) ∧
    (∀ s : RunState, s.set_state s = none) ∧
    RunState.Blame.set_state .Confirm = none ∧
    RunState.Confirm.set_state .Blame = none := by
  refine ⟨?_, ?_, by decide, by decide⟩ <;> decide

/-- `IncomingPayload` (src/io.rs). -/
inductive IncomingPayload where
  | Valid (p : Payload)
  | Invalid
deriving DecidableEq

/-- `RunStateMachine` (src/state/mod.rs); `BitSet` is embedded as the list
of member indices, `PeerVec<T>` as `List (Option T)`, public keys as
opaque naturals. -/
structure RunStateMachine where
  count : ℕ
  state : RunState
  kepks : List (Option ℕ)
  received : List ℕ
  histories : List (Option RunHistory)
  peers_before_dc_exponential : Option (List ℕ)
  peers_before_dc_main : Option (List ℕ)
deriving DecidableEq

/-- `BitSet::insert`: returns whether the value was newly inserted, plus
the updated set. -/
def bitsetInsert (l : List ℕ) (i : ℕ) : Bool × List ℕ :=
  if i ∈ l then (false, l) else (true, i :: l)

/-- `RunStateMachine::apply_incoming_message` (src/state/mod.rs): record
the peer in `received` (`debug_assert!(first_from_peer)`), record a valid
payload into the peer's history (`self.histories[i].as_mut().unwrap()`),
then dispatch on (state, payload) — every dispatch arm of the source is
`unimplemented!()`. -/
def RunStateMachine.apply_incoming_message (m : RunStateMachine) (peer_index : ℕ)
    (incoming_payload : IncomingPayload) : Except Panic RunStateMachine :=
  let ins := bitsetInsert m.received peer_index
  if !ins.1 then
    .error .duplicateMessage
  else
    match incoming_payload with
    | .Valid pay =>
      match m.histories[peer_index]? with
      | some (some h) =>
        match h.record_payload pay with
        | .error e => .error e
        | .ok _ => .error .unimplementedArm
      | _ => .error .missingHistory
    | .Invalid => .error .unimplementedArm

/-- C4 counterexample: with peer 0 already in `received`, a second message
from peer 0 is not rejected with the run state left unchanged — the
`debug_assert!(first_from_peer)` fails (a panic), and in particular the
call does not return the unchanged machine. -/
theorem duplicate_message_counterexample :
    (RunStateMachine.mk 0 (.DcProcess .Exponential) [some 1] [0]
        [some (RunHistory.new 1)] none none).apply_incoming_message 0
        (.Valid (.Confirm []))
      = .error .duplicateMessage ∧
    (RunStateMachine.mk 0 (.DcProcess .Exponential) [some 1] [0]
        [some (RunHistory.new 1)] none none).apply_incoming_message 0
        (.Valid (.Confirm []))
      ≠ .ok (RunStateMachine.mk 0 (.DcProcess .Exponential) [some 1] [0]
        [some (RunHistory.new 1)] none none) := by
  refine ⟨rfl, ?_⟩
  intro h
  rw [show (RunStateMachine.mk 0 (.DcProcess .Exponential) [some 1] [0]
        [some (RunHistory.new 1)] none none).apply_incoming_message 0
        (.Valid (.Confirm [])) = .error .duplicateMessage from rfl] at h
  exact Except.noConfusion h

/-- C4 amended: a duplicate message from a peer that already responded in
the current round trips the `debug_assert!` (a stream-contract violation)
instead of being cleanly rejected; moreover no call to
`apply_incoming_message` returns normally, because every dispatch arm is an
unimplemented placeholder. -/
theorem duplicate_message_asserts (m : RunStateMachine) (peer_index : ℕ)
    (inc : IncomingPayload) :
    (peer_index ∈ m.received →
      m.apply_incoming_message peer_index inc = .error .duplicateMessage) ∧
    (∀ m', m.apply_incoming_message peer_index inc ≠ .ok m') := by
  constructor
  · intro hmem
    unfold RunStateMachine.apply_incoming_message bitsetInsert
    simp [hmem]
  · intro m' h
    unfold RunStateMachine.apply_incoming_message bitsetInsert at h
    by_cases hmem : peer_index ∈ m.received
    · simp [hmem] at h
    · simp only [hmem, if_false, Bool.not_true, Bool.false_eq_true] at h
      cases inc with
      | Invalid => simp at h
      | Valid pay =>
        simp only at h
        rcases hg : m.histories[peer_index]? with _ | oh
        · rw [hg] at h; simp at h
        · rcases oh with _ | hh
          · rw [hg] at h; simp at h
          · rw [hg] at h
            rcases hr : hh.record_payload pay with e | h2 <;> simp [hr] at h

/-- Witness for `duplicate_message_asserts`: a duplicate `Invalid` item
from peer 0 panics with the duplicate-message assertion. -/
theorem duplicate_message_asserts_witness :
    (RunStateMachine.mk 0 (.DcProcess .Exponential) [some 1] [0]
        [some (RunHistory.new 1)] none none).apply_incoming_message 0 .Invalid
      = .error .duplicateMessage :=
  (duplicate_message_asserts _ 0 .Invalid).1 (by decide)

/-! ## Authenticated message channel (src/io.rs) -/

/-- The wire header used by src/io.rs (modelled from the spec, section 6:
session identifier, peer index, sequence number). -/
structure WireHeader where
  session_id : ℕ
  peer_index : ℕ
  sequence_num : ℕ
deriving DecidableEq

/-- Modelled from the spec: a raw byte buffer, abstracted by the outcomes
of the external operations src/io.rs applies to it — its length, whether
the trailing 64 bytes parse as a compact secp256k1 signature, the
`bincode` deserialization of the leading bytes, and whether the signature
verifies the domain-separated digest of the buffer under a given
verification key. -/
structure RawBytes where
  len : ℕ
  sigParses : Bool
  msg : Option (WireHeader × Payload)
  verifies : ℕ → Bool

/-- The result of one `poll` step on an inner item:
either a stream item `(peer index, payload-or-invalid)`, or the panic from
the unchecked `self.ltvks[peer_index as usize]` indexing. -/
inductive PollResult where
  | item (peer : ℕ) (pay : IncomingPayload)
  | panicked
deriving DecidableEq

/-- `ReadAuthenticatedPayloads` (src/io.rs): session id, the long-term
verification keys of the roster (keys embedded as opaque naturals), and
the single expected sequence number. -/
structure ReadAuthenticatedPayloads where
  session_id : ℕ
  ltvks : List ℕ
  sequence_num : ℕ
deriving DecidableEq

/-- `ReadAuthenticatedPayloads::new` (src/io.rs): `sequence_num` starts
at `0`. -/
def ReadAuthenticatedPayloads.new (session_id : ℕ) (ltvks : List ℕ) :
    ReadAuthenticatedPayloads :=
  ⟨session_id, ltvks, 0⟩

/-- `ReadAuthenticatedPayloads::advance_round` (src/io.rs):
`self.sequence_num += 1`. -/
def ReadAuthenticatedPayloads.advance_round (s : ReadAuthenticatedPayloads) :
    ReadAuthenticatedPayloads :=
  { s with sequence_num := s.sequence_num + 1 }

/-- `<ReadAuthenticatedPayloads as Stream>::poll` on one inner item
(src/io.rs): size check (compact signature size 64), signature and message
deserialization, session id, sequence number and peer index checks, then
signature verification against `self.ltvks[peer_index as usize]` — an
unchecked index. `poll` never writes any state field. -/
def ReadAuthenticatedPayloads.poll (s : ReadAuthenticatedPayloads)
    (peer_index : ℕ) (bytes : RawBytes) :
    PollResult × ReadAuthenticatedPayloads :=
  if bytes.len < 64 then
    (.item peer_index .Invalid, s)
  else
    match bytes.msg, bytes.sigParses with
    | none, _ => (.item peer_index .Invalid, s)
    | some _, false => (.item peer_index .Invalid, s)
    | some (hdr, pay), true =>
      if hdr.session_id ≠ s.session_id then
        (.item peer_index .Invalid, s)
      else if hdr.sequence_num ≠ s.sequence_num then
        (.item peer_index .Invalid, s)
      else if hdr.peer_index ≠ peer_index then
        (.item peer_index .Invalid, s)
      else
        match s.ltvks[peer_index]? with
        | none => (.panicked, s)
        | some key =>
          if bytes.verifies key then
            (.item peer_index (.Valid pay), s)
          else
            (.item peer_index .Invalid, s)

/-- C1 counterexample: the channel does not keep per-peer expected sequence
numbers — there is one shared counter, and accepting a valid item does not
advance it: a valid item from peer 0 is accepted with the channel state
unchanged, and re-delivering the very same item is accepted as valid again
instead of being reported invalid. -/
theorem sequence_number_counterexample :
    (ReadAuthenticatedPayloads.new 7 [5]).poll 0
        ⟨64, true, some (⟨7, 0, 0⟩, .Confirm []), fun _ => true⟩
      = (.item 0 (.Valid (.Confirm [])), ReadAuthenticatedPayloads.new 7 [5]) ∧
    ((ReadAuthenticatedPayloads.new 7 [5]).poll 0
        ⟨64, true, some (⟨7, 0, 0⟩, .Confirm []), fun _ => true⟩).2.sequence_num
      = (ReadAuthenticatedPayloads.new 7 [5]).sequence_num ∧
    ((ReadAuthenticatedPayloads.new 7 [5]).poll 0
        ⟨64, true, some (⟨7, 0, 0⟩, .Confirm []), fun _ => true⟩).2.poll 0
        ⟨64, true, some (⟨7, 0, 0⟩, .Confirm []), fun _ => true⟩
      = (.item 0 (.Valid (.Confirm [])), ReadAuthenticatedPayloads.new 7 [5]) :=
  ⟨rfl, rfl, rfl⟩

/-- C1 amended: the channel keeps a single expected sequence number shared
by all peers, advanced by one only by `advance_round`; `poll` never
modifies the channel state (in particular acceptance of a valid item does
not advance any counter), and an item whose embedded sequence number
differs from the shared expected value is reported invalid. -/
theorem sequence_number_tracking (s : ReadAuthenticatedPayloads)
    (peer_index : ℕ) (bytes : RawBytes) :
    (s.poll peer_index bytes).2 = s ∧
    s.advance_round.sequence_num = s.sequence_num + 1 ∧
    (∀ hdr pay, bytes.msg = some (hdr, pay) →
      hdr.sequence_num ≠ s.sequence_num →
      s.poll peer_index bytes = (.item peer_index .Invalid, s)) := by
  refine ⟨?_, rfl, ?_⟩
  · unfold ReadAuthenticatedPayloads.poll
    split
    · rfl
    · split
      · rfl
      · rfl
      · split
        · rfl
        · split
          · rfl
          · split
            · rfl
            · split
              · rfl
              · split <;> rfl
  · intro hdr pay hmsg hseq
    unfold ReadAuthenticatedPayloads.poll
    rw [hmsg]
    split
    · rfl
    · cases hsp : bytes.sigParses with
      | false => rfl
      | true =>
        simp only
        split
        · rfl
        · simp [hseq]

/-- Witness for `sequence_number_tracking`: an item with embedded sequence
number 5 against expected 0 is reported invalid with the state unchanged. -/
theorem sequence_number_tracking_witness :
    (ReadAuthenticatedPayloads.new 7 [5]).poll 0
        ⟨64, true, some (⟨7, 0, 5⟩, .Confirm []), fun _ => true⟩
      = (.item 0 .Invalid, ReadAuthenticatedPayloads.new 7 [5]) :=
  (sequence_number_tracking (ReadAuthenticatedPayloads.new 7 [5]) 0
    ⟨64, true, some (⟨7, 0, 5⟩, .Confirm []), fun _ => true⟩).2.2
    ⟨7, 0, 5⟩ (.Confirm []) rfl (by decide)

/-- C2 counterexample: an item delivered under peer index 1 with only one
key in the roster, passing the size/parse/session/sequence/index checks,
is not reported as the uniform `(peer index, Invalid)` outcome — the
unchecked `self.ltvks[peer_index as usize]` lookup goes out of bounds
(a panic). -/
theorem out_of_roster_counterexample :
    ((ReadAuthenticatedPayloads.new 7 [5]).poll 1
        ⟨64, true, some (⟨7, 1, 0⟩, .Confirm []), fun _ => true⟩).1
      = .panicked ∧
    ((ReadAuthenticatedPayloads.new 7 [5]).poll 1
        ⟨64, true, some (⟨7, 1, 0⟩, .Confirm []), fun _ => true⟩).1
      ≠ .item 1 .Invalid := by
  refine ⟨rfl, ?_⟩
  intro h
  rw [show ((ReadAuthenticatedPayloads.new 7 [5]).poll 1
      ⟨64, true, some (⟨7, 1, 0⟩, .Confirm []), fun _ => true⟩).1
      = .panicked from rfl] at h
  exact PollResult.noConfusion h

/-- C2 amended: for an item whose peer index is outside the roster, the
channel never yields a valid payload and never produces a stream error:
it reports the uniform `(peer index, Invalid)` outcome whenever any of the
size/parse/session/sequence/index checks fails, but when all those checks
pass it panics on the out-of-bounds verification-key lookup (the channel
relies on the underlying stream to drop messages of excluded peers). -/
theorem out_of_roster_behavior (s : ReadAuthenticatedPayloads)
    (peer_index : ℕ) (bytes : RawBytes)
    (hout : s.ltvks.length ≤ peer_index) :
    ((s.poll peer_index bytes).1 = .item peer_index .Invalid ∨
      (s.poll peer_index bytes).1 = .panicked) ∧
    (∀ pay, (s.poll peer_index bytes).1 ≠ .item peer_index (.Valid pay)) ∧
    ((s.poll peer_index bytes).1 = .panicked ↔
      64 ≤ bytes.len ∧ bytes.sigParses = true ∧
      ∃ hdr pay, bytes.msg = some (hdr, pay) ∧
        hdr.session_id = s.session_id ∧
        hdr.sequence_num = s.sequence_num ∧
        hdr.peer_index = peer_index) := by
  have hnone : s.ltvks[peer_index]? = none :=
    getElem?_neg s.ltvks peer_index (by omega)
  unfold ReadAuthenticatedPayloads.poll
  rw [hnone]
  split
  · rename_i hlen
    refine ⟨.inl rfl, by intro pay h; simp at h, ?_⟩
    simp only
    constructor
    · intro h; simp at h
    · rintro ⟨h64, -⟩; omega
  · rename_i hlen
    rcases hmsg : bytes.msg with - | ⟨hdr, pay⟩
    · refine ⟨.inl rfl, by intro pay h; simp at h, ?_⟩
      constructor
      · intro h; simp at h
      · rintro ⟨-, -, hdr', pay', hcontra, -⟩
        exact Option.noConfusion hcontra
    · cases hsp : bytes.sigParses with
      | false =>
        refine ⟨.inl rfl, by intro pay h; simp at h, ?_⟩
        constructor
        · intro h; simp at h
        · rintro ⟨-, hcontra, -⟩
          exact Bool.noConfusion hcontra
      | true =>
        simp only
        by_cases hsess : hdr.session_id ≠ s.session_id
        · rw [if_pos hsess]
          refine ⟨.inl rfl, by intro pay h; simp at h, ?_⟩
          constructor
          · intro h; simp at h
          · rintro ⟨-, -, hdr', pay', hm, hs, -⟩
            injection hm with hm
            injection hm with hm1 hm2
            exact (hsess (hm1 ▸ hs)).elim
        · rw [if_neg hsess]
          push_neg at hsess
          by_cases hseq : hdr.sequence_num ≠ s.sequence_num
          · rw [if_pos hseq]
            refine ⟨.inl rfl, by intro pay h; simp at h, ?_⟩
            constructor
            · intro h; simp at h
            · rintro ⟨-, -, hdr', pay', hm, -, hs, -⟩
              injection hm with hm
              injection hm with hm1 hm2
              exact (hseq (hm1 ▸ hs)).elim
          · rw [if_neg hseq]
            push_neg at hseq
            by_cases hpi : hdr.peer_index ≠ peer_index
            · rw [if_pos hpi]
              refine ⟨.inl rfl, by intro pay h; simp at h, ?_⟩
              constructor
              · intro h; simp at h
              · rintro ⟨-, -, hdr', pay', hm, -, -, hs⟩
                injection hm with hm
                injection hm with hm1 hm2
                exact (hpi (hm1 ▸ hs)).elim
            · rw [if_neg hpi]
              push_neg at hpi
              refine ⟨.inr rfl, by intro pay h; simp at h, ?_⟩
              constructor
              · intro _
                exact ⟨by omega, by trivial, hdr, pay, by trivial, hsess, hseq, hpi⟩
              · intro _
                rfl

/-- Witness for `out_of_roster_behavior` at a concrete out-of-roster item
that passes every header check. -/
theorem out_of_roster_behavior_witness :
    ((ReadAuthenticatedPayloads.new 7 [5]).poll 1
        ⟨64, true, some (⟨7, 1, 0⟩, .Confirm []), fun _ => true⟩).1
      = .panicked :=
  (out_of_roster_behavior (ReadAuthenticatedPayloads.new 7 [5]) 1
    ⟨64, true, some (⟨7, 1, 0⟩, .Confirm []), fun _ => true⟩ (by decide)).2.2.mpr
    ⟨by decide, rfl, ⟨7, 1, 0⟩, .Confirm [], rfl, rfl, rfl, rfl⟩

/-! ## DiceMix RNG (src/rng.rs) -/

/-- Modelled from the spec: the state of the external `ChaChaRng`
(rand crate). ChaCha is a deterministic stream cipher, so the 32-bit word
at word position `pos` of stream `stream` under seed `seed` is a pure
function of those three values; the theorems below hold for every such
block function. -/
structure ChaChaRng where
  seed : List ℕ
  stream : ℕ
  word_pos : ℕ
deriving DecidableEq

/-- `ChaChaRng::from_seed` (external): stream 0, word position 0. -/
def ChaChaRng.from_seed (key : List ℕ) : ChaChaRng := ⟨key, 0, 0⟩

/-- `ChaChaRng::set_word_pos` (external). -/
def ChaChaRng.set_word_pos (c : ChaChaRng) (p : ℕ) : ChaChaRng :=
  { c with word_pos := p }

/-- `ChaChaRng::set_stream` (external). -/
def ChaChaRng.set_stream (c : ChaChaRng) (n : ℕ) : ChaChaRng :=
  { c with stream := n }

/-- `ChaChaRng::next_u32` (external): emit the current word, advance the
word position. `block` is the ChaCha block/word function. -/
def ChaChaRng.next_u32 (block : List ℕ → ℕ → ℕ → ℕ) (c : ChaChaRng) :
    ℕ × ChaChaRng :=
  (block c.seed c.stream c.word_pos, { c with word_pos := c.word_pos + 1 })

/-- `DiceMixRng` (src/rng.rs). -/
structure DiceMixRng where
  chacha : ChaChaRng
deriving DecidableEq

/-- `DiceMixRng::prepare_round` (src/rng.rs): word position 1 (the first
block is skipped), stream = round. -/
def DiceMixRng.prepare_round (r : DiceMixRng) (round : ℕ) : DiceMixRng :=
  ⟨(r.chacha.set_word_pos 1).set_stream round⟩

/-- `DiceMixRng::new` (src/rng.rs): seed ChaCha with the 32-byte key, then
`prepare_round(0)`. -/
def DiceMixRng.new (key : List ℕ) : DiceMixRng :=
  (DiceMixRng.mk (ChaChaRng.from_seed key)).prepare_round 0

/-- `RngCore::next_u32 for DiceMixRng` (src/rng.rs): delegate to ChaCha. -/
def DiceMixRng.next_u32 (block : List ℕ → ℕ → ℕ → ℕ) (r : DiceMixRng) :
    ℕ × DiceMixRng :=
  let (w, c) := r.chacha.next_u32 block
  (w, ⟨c⟩)

/-- The stream of the next `n` 32-bit outputs of a `DiceMixRng`. -/
def rngOutputs (block : List ℕ → ℕ → ℕ → ℕ) : ℕ → DiceMixRng → List ℕ
  | 0, _ => []
  | n + 1, r =>
    let (w, r') := r.next_u32 block
    w :: rngOutputs block n r'

/-- Consuming `m` outputs of a `DiceMixRng` (to show replay after use). -/
def rngSkip (block : List ℕ → ℕ → ℕ → ℕ) : ℕ → DiceMixRng → DiceMixRng
  | 0, r => r
  | m + 1, r => rngSkip block m (r.next_u32 block).2

theorem rngOutputs_closed_form (block : List ℕ → ℕ → ℕ → ℕ) (n : ℕ) (c : ChaChaRng) :
    rngOutputs block n ⟨c⟩
      = (List.range n).map (fun i => block c.seed c.stream (c.word_pos + i)) := by
  induction n generalizing c with
  | zero => rfl
  | succ n ih =>
    show block c.seed c.stream c.word_pos
        :: rngOutputs block n ⟨⟨c.seed, c.stream, c.word_pos + 1⟩⟩ = _
    rw [ih ⟨c.seed, c.stream, c.word_pos + 1⟩, List.range_succ_eq_map,
      List.map_cons, List.map_map]
    dsimp only
    congr 1
    congr 1
    funext i
    simp only [Function.comp_apply]
    congr 1
    omega

theorem rngSkip_seed_stream (block : List ℕ → ℕ → ℕ → ℕ) (m : ℕ) (r : DiceMixRng) :
    (rngSkip block m r).chacha.seed = r.chacha.seed := by
  induction m generalizing r with
  | zero => rfl
  | succ m ih => exact ih _

theorem prepare_round_seed (r : DiceMixRng) (round : ℕ) :
    (r.prepare_round round).chacha.seed = r.chacha.seed := rfl

/-- C9: pad derivation is deterministic and replayable. After
`prepare_round(round)` the output stream is the fixed function
`i ↦ block(seed, round, 1 + i)` of the seed and the round alone — so two
instances built from the same key produce identical streams, a fresh
instance's stream is a function of the key only, and calling
`prepare_round(round)` again after consuming any number of outputs
reproduces exactly the same outputs. -/
theorem rng_deterministic_replay (block : List ℕ → ℕ → ℕ → ℕ)
    (key : List ℕ) (round n m : ℕ) (r : DiceMixRng) :
    rngOutputs block n (r.prepare_round round)
      = (List.range n).map (fun i => block r.chacha.seed round (1 + i)) ∧
    rngOutputs block n (DiceMixRng.new key)
      = (List.range n).map (fun i => block key 0 (1 + i)) ∧
    rngOutputs block n ((rngSkip block m (r.prepare_round round)).prepare_round round)
      = rngOutputs block n (r.prepare_round round) := by
  have hform : ∀ (s : DiceMixRng) (rd : ℕ), rngOutputs block n (s.prepare_round rd)
      = (List.range n).map (fun i => block s.chacha.seed rd (1 + i)) := by
    intro s rd
    show rngOutputs block n ⟨⟨s.chacha.seed, rd, 1⟩⟩ = _
    exact rngOutputs_closed_form block n ⟨s.chacha.seed, rd, 1⟩
  refine ⟨hform r round, hform ⟨⟨key, 0, 0⟩⟩ 0, ?_⟩
  rw [hform (rngSkip block m (r.prepare_round round)) round, hform r round,
    rngSkip_seed_stream, prepare_round_seed]

end DiceMix

namespace DiceMix.Messages

/-! ## Wire message codec (src/messages.rs)

The codec is parameterized over the external secp256k1 types: `Sig` is a
parsed compact ECDSA signature, `Pk` a parsed compressed public key, with
their serialization/parsing functions. src/messages.rs serializes a
signature to exactly 64 bytes and a compressed public key to exactly 33
bytes; those facts, and that parsing inverts serialization, are hypotheses
of the round-trip theorem. Bytes are embedded as naturals. -/

/-- The parse errors of src/messages.rs (io::Error with these messages). -/
inductive DecodeErr where
  | wrongMagic
  | unknownPayloadVariant
  | sigParseFailed
  | pkParseFailed
deriving DecidableEq

/-- `MAGIC` (src/messages.rs): `[0x68, 0x1e, 0x58, 0x12]`. -/
def MAGIC : List ℕ := [0x68, 0x1e, 0x58, 0x12]

/-- `Header` (src/messages.rs): one protocol-version byte. -/
structure Header where
  protocol_version : ℕ
deriving DecidableEq

/-- `Payload` (src/messages.rs). Only `KeyExchange` is encodable; decoding
knows only payload type 0 (`KeyExchange`). -/
inductive Payload (Sig Pk : Type) where
  | KeyExchange (signature : Sig) (ke_pk : Pk)
  | DcExponential (commitment : List ℕ) (dc_exp : List ℕ)
  | DcXor (ok : Bool) (dc_xor : List (List ℕ))
  | Blame (ke_sk : ℕ)
  | Confirm (data : List ℕ)
  | Reveal (keys : List (ℕ × ℕ))

/-- `Message` (src/messages.rs). -/
structure Message (Sig Pk : Type) where
  header : Header
  payload : Payload Sig Pk

/-- `Header::decode` (src/messages.rs). -/
def Header.decode (buf : List ℕ) : Option (Header × List ℕ) :=
  if buf.length < 1 then none
  else some (⟨buf.headD 0⟩, buf.drop 1)

/-- `KeyExchange::decode` (src/messages.rs): 64 signature bytes then 33
public-key bytes; parse failures are hard errors, a short buffer is
`Ok(None)`. -/
def keyExchangeDecode {Sig Pk : Type} (sigParse : List ℕ → Option Sig)
    (pkParse : List ℕ → Option Pk) (buf : List ℕ) :
    Except DecodeErr (Option (Payload Sig Pk × List ℕ)) :=
  if buf.length < 64 + 33 then .ok none
  else
    match sigParse (buf.take 64) with
    | none => .error .sigParseFailed
    | some sig =>
      match pkParse ((buf.drop 64).take 33) with
      | none => .error .pkParseFailed
      | some pk => .ok (some (.KeyExchange sig pk, (buf.drop 64).drop 33))

/-- `Payload::decode` (src/messages.rs): dispatch on the payload type
byte; only type 0 is known. -/
def payloadDecode {Sig Pk : Type} (sigParse : List ℕ → Option Sig)
    (pkParse : List ℕ → Option Pk) (buf : List ℕ) :
    Except DecodeErr (Option (Payload Sig Pk × List ℕ)) :=
  if buf.length < 1 then .ok none
  else if buf.headD 0 = 0 then
    keyExchangeDecode sigParse pkParse (buf.drop 1)
  else
    .error .unknownPayloadVariant

/-- `Message::decode` (src/messages.rs): magic, header, payload; returns
the message and the unconsumed remainder of the buffer. -/
def messageDecode {Sig Pk : Type} (sigParse : List ℕ → Option Sig)
    (pkParse : List ℕ → Option Pk) (buf : List ℕ) :
    Except DecodeErr (Option (Message Sig Pk × List ℕ)) :=
  if buf.length < 4 then .ok none
  else if buf.take 4 ≠ MAGIC then .error .wrongMagic
  else
    match Header.decode (buf.drop 4) with
    | none => .ok none
    | some (header, buf1) =>
      match payloadDecode sigParse pkParse buf1 with
      | .error e => .error e
      | .ok none => .ok none
      | .ok (some (payload, buf2)) => .ok (some (⟨header, payload⟩, buf2))

/-- `KeyExchange::encode` (src/messages.rs): type byte `0x00`, compact
signature, compressed public key. `Payload::encode` is `unimplemented!()`
for every other variant (the `none` outcome). -/
def payloadEncode {Sig Pk : Type} (sigSer : Sig → List ℕ)
    (pkSer : Pk → List ℕ) : Payload Sig Pk → Option (List ℕ)
  | .KeyExchange sig pk => some (0 :: (sigSer sig ++ pkSer pk))
  | _ => none

/-- `Message::encode` (src/messages.rs): magic, header byte, payload. -/
def messageEncode {Sig Pk : Type} (sigSer : Sig → List ℕ)
    (pkSer : Pk → List ℕ) (m : Message Sig Pk) : Option (List ℕ) :=
  match payloadEncode sigSer pkSer m.payload with
  | none => none
  | some pbytes => some (MAGIC ++ m.header.protocol_version :: pbytes)

/-- `<MessageCodec as Decoder>::decode` (src/messages.rs): on success the
buffer is truncated by exactly the consumed bytes
(`buf.split_to(consumed)`); on `Ok(None)` the buffer is untouched. -/
def codecDecode {Sig Pk : Type} (sigParse : List ℕ → Option Sig)
    (pkParse : List ℕ → Option Pk) (buf : List ℕ) :
    Except DecodeErr (Option (Message Sig Pk) × List ℕ) :=
  match messageDecode sigParse pkParse buf with
  | .error e => .error e
  | .ok none => .ok (none, buf)
  | .ok (some (msg, remaining)) =>
    .ok (some msg, buf.drop (buf.length - remaining.length))

theorem headerDecode_cons (a : ℕ) (l : List ℕ) :
    Header.decode (a :: l) = some (⟨a⟩, l) := by
  unfold Header.decode
  simp

theorem payloadDecode_zero_cons {Sig Pk : Type} (sigParse : List ℕ → Option Sig)
    (pkParse : List ℕ → Option Pk) (l : List ℕ) :
    payloadDecode sigParse pkParse (0 :: l) = keyExchangeDecode sigParse pkParse l := by
  unfold payloadDecode
  simp

theorem keyExchangeDecode_short {Sig Pk : Type} (sigParse : List ℕ → Option Sig)
    (pkParse : List ℕ → Option Pk) (l : List ℕ) (h : l.length < 97) :
    keyExchangeDecode sigParse pkParse l = .ok none := by
  unfold keyExchangeDecode
  rw [if_pos (by omega)]

/-- C10: the message codec round-trips `KeyExchange` messages atomically:
decoding the encoding of `m` followed by arbitrary bytes returns `m` and
consumes exactly the encoding, leaving the following bytes as the new
buffer; and decoding any proper prefix of the encoding returns `Ok(None)`
with the buffer unmodified. The signature/public-key primitives are those
of secp256k1: serialization produces 64 (resp. 33) bytes and parsing
inverts serialization. -/
theorem message_codec_roundtrip {Sig Pk : Type}
    (sigSer : Sig → List ℕ) (sigParse : List ℕ → Option Sig)
    (pkSer : Pk → List ℕ) (pkParse : List ℕ → Option Pk)
    (hsig : ∀ s, sigParse (sigSer s) = some s)
    (hsiglen : ∀ s, (sigSer s).length = 64)
    (hpk : ∀ p, pkParse (pkSer p) = some p)
    (hpklen : ∀ p, (pkSer p).length = 33)
    (ver : ℕ) (sig : Sig) (pk : Pk) (rest : List ℕ) (enc : List ℕ)
    (henc : messageEncode sigSer pkSer ⟨⟨ver⟩, .KeyExchange sig pk⟩ = some enc) :
    codecDecode sigParse pkParse (enc ++ rest)
      = .ok (some ⟨⟨ver⟩, .KeyExchange sig pk⟩, rest) ∧
    (∀ j, j < enc.length →
      codecDecode sigParse pkParse (enc.take j) = .ok (none, enc.take j)) := by
  have hS : (sigSer sig).length = 64 := hsiglen sig
  have hK : (pkSer pk).length = 33 := hpklen pk
  have hencval : enc = MAGIC ++ ver :: 0 :: (sigSer sig ++ pkSer pk) := by
    unfold messageEncode payloadEncode at henc
    simp only at henc
    injection henc with henc
    exact henc.symm
  subst hencval
  have henclen : (MAGIC ++ ver :: 0 :: (sigSer sig ++ pkSer pk)).length = 103 := by
    simp [MAGIC, hS, hK]
  have hmain : messageDecode sigParse pkParse
      ((MAGIC ++ ver :: 0 :: (sigSer sig ++ pkSer pk)) ++ rest)
      = .ok (some (⟨⟨ver⟩, .KeyExchange sig pk⟩, rest)) := by
    have hbuf : (MAGIC ++ ver :: 0 :: (sigSer sig ++ pkSer pk)) ++ rest
        = MAGIC ++ (ver :: 0 :: (sigSer sig ++ (pkSer pk ++ rest))) := by
      simp [List.append_assoc]
    have hpd : payloadDecode sigParse pkParse
        (0 :: (sigSer sig ++ (pkSer pk ++ rest)))
        = .ok (some (.KeyExchange sig pk, rest)) := by
      rw [payloadDecode_zero_cons]
      unfold keyExchangeDecode
      rw [if_neg (by simp [hS, hK]; omega)]
      rw [List.take_left' hS, hsig sig, List.drop_left' hS,
        List.take_left' hK, hpk pk, List.drop_left' hK]
    rw [hbuf]
    unfold messageDecode
    rw [if_neg (by simp [MAGIC])]
    rw [List.take_left' (by simp [MAGIC] : (MAGIC).length = 4)]
    rw [if_neg (by simp)]
    rw [List.drop_left' (by simp [MAGIC] : (MAGIC).length = 4)]
    rw [headerDecode_cons]
    simp only [hpd]
  have hdrop : ((MAGIC ++ ver :: 0 :: (sigSer sig ++ pkSer pk)) ++ rest).drop
      (((MAGIC ++ ver :: 0 :: (sigSer sig ++ pkSer pk)) ++ rest).length - rest.length)
      = rest := by
    rw [List.length_append, henclen]
    have h1 : 103 + rest.length - rest.length = 103 := by omega
    rw [h1]
    exact List.drop_left' henclen
  constructor
  · unfold codecDecode
    simp only [hmain, hdrop]
  · intro j hj
    rw [henclen] at hj
    have hprelen : ((MAGIC ++ ver :: 0 :: (sigSer sig ++ pkSer pk)).take j).length = j := by
      rw [List.length_take, henclen]
      omega
    have hpre : messageDecode sigParse pkParse
        ((MAGIC ++ ver :: 0 :: (sigSer sig ++ pkSer pk)).take j) = .ok none := by
      unfold messageDecode
      rcases Nat.lt_or_ge j 4 with h4 | h4
      · rw [if_pos (by omega)]
      · rw [if_neg (by omega)]
        have htake4 : ((MAGIC ++ ver :: 0 :: (sigSer sig ++ pkSer pk)).take j).take 4
            = MAGIC := by
          rw [List.take_take]
          have : min 4 j = 4 := by omega
          rw [this]
          exact List.take_left' (by simp [MAGIC])
        rw [htake4, if_neg (by simp)]
        have hdrop4 : ((MAGIC ++ ver :: 0 :: (sigSer sig ++ pkSer pk)).take j).drop 4
            = (ver :: 0 :: (sigSer sig ++ pkSer pk)).take (j - 4) := by
          rw [List.drop_take]
          rfl
        rw [hdrop4]
        rcases Nat.lt_or_ge j 5 with h5 | h5
        · have : j - 4 = 0 := by omega
          rw [this]
          rfl
        · have hj4 : j - 4 = (j - 5) + 1 := by omega
          rw [hj4, List.take_succ_cons, headerDecode_cons]
          rcases Nat.lt_or_ge j 6 with h6 | h6
          · have : j - 5 = 0 := by omega
            rw [this]
            rfl
          · have hj5 : j - 5 = (j - 6) + 1 := by omega
            have hpd2 : payloadDecode sigParse pkParse
                ((0 :: (sigSer sig ++ pkSer pk)).take (j - 5)) = .ok none := by
              rw [hj5, List.take_succ_cons, payloadDecode_zero_cons,
                keyExchangeDecode_short]
              rw [List.length_take, List.length_append, hS, hK]
              omega
            simp only [hpd2]
    unfold codecDecode
    simp only [hpre]

/-- Witness for `message_codec_roundtrip` with unit signature/key types
serialized as 64 zero bytes and 33 one bytes, version byte 2, one trailing
byte, and the proper prefix of length 10. -/
theorem message_codec_roundtrip_witness :
    codecDecode (fun l => if l.length = 64 then some () else none)
        (fun l => if l.length = 33 then some () else none)
        ((MAGIC ++ 2 :: 0 :: (List.replicate 64 0 ++ List.replicate 33 1)) ++ [9])
      = .ok (some ⟨⟨2⟩, .KeyExchange () ()⟩, [9]) ∧
    codecDecode (fun l => if l.length = 64 then some () else none)
        (fun l => if l.length = 33 then some () else none)
        ((MAGIC ++ 2 :: 0 :: (List.replicate 64 0 ++ List.replicate 33 1)).take 10)
      = .ok (none,
          (MAGIC ++ 2 :: 0 :: (List.replicate 64 0 ++ List.replicate 33 1)).take 10) := by
  have h := message_codec_roundtrip
    (fun _ : Unit => List.replicate 64 0)
    (fun l => if l.length = 64 then some () else none)
    (fun _ : Unit => List.replicate 33 1)
    (fun l => if l.length = 33 then some () else none)
    (by intro s; cases s; simp)
    (by intro s; simp)
    (by intro p; cases p; simp)
    (by intro p; simp)
    2 () () [9]
    (MAGIC ++ 2 :: 0 :: (List.replicate 64 0 ++ List.replicate 33 1))
    rfl
  exact ⟨h.1, h.2 10 (by simp [MAGIC])⟩

end DiceMix.Messages
